import Mathlib

set_option maxHeartbeats 1000000

/-!
Verification development for the zkIPFS-Proof core (`src/backend/core`).

Bytes are modelled as `Nat` values; byte strings as `List Nat`.  The SHA-256
digest used by the block store and the verifier is an external cryptographic
primitive; it is modelled as an explicit function parameter `hash`
(resp. `sha256`), and theorems that depend on collision resistance take
`Function.Injective hash` as a hypothesis (the usual idealization of a
collision-resistant hash).  The Risc0 receipt machinery and the `regex` /
`sxd_xpath` engines are likewise external crates and appear as function
parameters.  Wall-clock data (timestamps, durations) recorded in verification
results is not modelled; timestamps that feed a decision (the proof-age check)
are modelled as integer seconds.
-/

namespace ZkIpfs


/-- Decidable equality on `Except` results, used to state and check concrete
runs of the modelled operations. -/
instance {e a : Type} [DecidableEq e] [DecidableEq a] : DecidableEq (Except e a) := fun x y =>
  match x, y with
  | .ok u, .ok v =>
    if h : u = v then isTrue (by rw [h]) else isFalse (by simp [h])
  | .error u, .error v =>
    if h : u = v then isTrue (by rw [h]) else isFalse (by simp [h])
  | .ok _, .error _ => isFalse (by simp)
  | .error _, .ok _ => isFalse (by simp)

/-- Link to another IPFS block (`BlockLink`, src/backend/core/src/lib.rs). -/
structure BlockLink where
  name : String
  cid : List Nat
  size : Nat
  deriving DecidableEq, Repr

/-- An IPFS block with its data and metadata (`IpfsBlock`, src/backend/core/src/lib.rs). -/
structure IpfsBlock where
  data : List Nat
  cid : List Nat
  links : List BlockLink
  deriving DecidableEq, Repr

/-- Parsed CID value: a codec tag together with the multihash digest bytes.
Models the `cid::Cid` values produced by `Cid::new_v1` in ipfs.rs. -/
structure CidV where
  codec : Nat
  digest : List Nat
  deriving DecidableEq, Repr

/-- Models `IpfsProcessor::calculate_block_cid` (ipfs.rs 152-156): the sha2-256
digest of the data under codec 0x55 (raw).  The digest function is the
parameter `hash`. -/
def calculateBlockCid (hash : List Nat → List Nat) (data : List Nat) : CidV :=
  ⟨0x55, hash data⟩

/-- Byte encoding of a CID (`Cid::to_bytes`): a version-1 marker, the codec,
and the multihash (code 0x12 for sha2-256, digest length, digest bytes).
Varint details of the real encoding are abstracted; what the core relies on is
that the encoding is injective and parseable. -/
def CidV.toBytes (c : CidV) : List Nat :=
  1 :: c.codec :: 0x12 :: 32 :: c.digest

/-- Parse of CID bytes (`Cid::try_from(&block.cid[..])` in ipfs.rs 243):
inverts `CidV.toBytes` and rejects byte strings of any other shape (for
example the `vec![0, 1, 2, 3]` used in the ipfs.rs tests). -/
def cidFromBytes : List Nat → Option CidV
  | 1 :: codec :: 0x12 :: 32 :: digest => some ⟨codec, digest⟩
  | _ => none

/-- Splitting loop of `IpfsProcessor::create_blocks` (ipfs.rs 94-113): while
bytes remain, take the next `maxBlockSize` bytes as a chunk.  The source's
`while` loop does not terminate when `max_block_size = 0`; the model returns
`[]` in that (never exercised) case and every theorem assumes
`0 < maxBlockSize`. -/
def chunkify (maxBlockSize : Nat) (content : List Nat) : List (List Nat) :=
  if h : maxBlockSize = 0 ∨ content = [] then []
  else content.take maxBlockSize :: chunkify maxBlockSize (content.drop maxBlockSize)
termination_by content.length
decreasing_by
  have h1 : maxBlockSize ≠ 0 := fun hh => h (Or.inl hh)
  have h2 : content ≠ [] := fun hh => h (Or.inr hh)
  have h3 : 0 < content.length := List.length_pos.mpr h2
  simp only [List.length_drop]
  omega

/-- Little-endian 8-byte encoding of a chunk length, as in
`(block.data.len() as u64).to_le_bytes()` (ipfs.rs 139). -/
def u64le (n : Nat) : List Nat :=
  (List.range 8).map (fun k => n / 256 ^ k % 256)

/-- Models `IpfsProcessor::create_root_block` (ipfs.rs 125-149): one link per
content block named `chunk_<i>`, and root data that appends, for each content
block in order, its cid bytes followed by its length as 8 little-endian
bytes. -/
def createRootBlock (hash : List Nat → List Nat) (contentBlocks : List IpfsBlock) :
    IpfsBlock :=
  let links := contentBlocks.enum.map (fun p =>
    { name := "chunk_" ++ toString p.1, cid := p.2.cid, size := p.2.data.length : BlockLink })
  let rootData := (contentBlocks.map (fun b => b.cid ++ u64le b.data.length)).flatten
  { data := rootData
    cid := (calculateBlockCid hash rootData).toBytes
    links := links }

/-- Models `IpfsProcessor::create_blocks` (ipfs.rs 93-122): chunk the content,
give each chunk its cid and no links, and when more than one chunk results
prepend a root block linking to all chunks. -/
def createBlocks (hash : List Nat → List Nat) (maxBlockSize : Nat) (content : List Nat) :
    List IpfsBlock :=
  let blocks := (chunkify maxBlockSize content).map (fun d =>
    { data := d, cid := (calculateBlockCid hash d).toBytes, links := [] : IpfsBlock })
  if 1 < blocks.length then createRootBlock hash blocks :: blocks else blocks

/-- Error outcome of `IpfsProcessor::reconstruct_content`: a link whose target
cid is not present in the block list (`ProofError::ipfs_error` with operation
`content_reconstruction`). -/
inductive ReconstructErr where
  | missingLink
  deriving DecidableEq, Repr

/-- Models `blocks.iter().find(|b| b.cid == link.cid)` (ipfs.rs 224). -/
def findBlockByCid (blocks : List IpfsBlock) (cid : List Nat) : Option IpfsBlock :=
  blocks.find? (fun b => decide (b.cid = cid))

/-- Link-walking loop of `IpfsProcessor::reconstruct_content` (ipfs.rs
221-233): for each link in order, look up the block with that cid and append
its data; a missing target is a hard error. -/
def gatherLinkedData (blocks : List IpfsBlock) : List BlockLink → Except ReconstructErr (List Nat)
  | [] => .ok []
  | l :: ls =>
    match findBlockByCid blocks l.cid with
    | none => .error .missingLink
    | some b => do
      let rest ← gatherLinkedData blocks ls
      .ok (b.data ++ rest)

/-- Models `IpfsProcessor::reconstruct_content` (ipfs.rs 199-236): empty input
gives empty bytes; a single block gives its data; with several blocks the
first is the root: if it has links the content is reassembled in link order,
otherwise all block data is concatenated naively. -/
def reconstructContent (blocks : List IpfsBlock) : Except ReconstructErr (List Nat) :=
  match blocks with
  | [] => .ok []
  | [b] => .ok b.data
  | root :: rest =>
    if root.links = [] then
      .ok (((root :: rest).map (fun b => b.data)).flatten)
    else
      gatherLinkedData (root :: rest) root.links

/-- Error outcomes of `IpfsProcessor::validate_blocks` (ipfs.rs 239-280); each
constructor records the indices interpolated into the source's error message. -/
inductive ValidateErr where
  | cidParse (block : Nat)
  | cidMismatch (block : Nat)
  | emptyLinkName (block link : Nat)
  | emptyLinkCid (block link : Nat)
  deriving DecidableEq, Repr

/-- Link checking loop of `validate_blocks` (ipfs.rs 260-276): for each link
of block `i`, an empty name or an empty cid is a structural error naming the
block and link indices. -/
def checkLinks (i : Nat) : Nat → List BlockLink → Except ValidateErr Unit
  | _, [] => .ok ()
  | j, l :: ls =>
    if l.name = "" then .error (.emptyLinkName i j)
    else if l.cid = [] then .error (.emptyLinkCid i j)
    else checkLinks i (j + 1) ls

/-- Block loop of `validate_blocks` starting at index `i`: parse the stored
cid (failure is a `cid_parsing` error), recompute the cid from the data and
compare (mismatch is a `block_validation` error), then validate the links. -/
def validateFrom (hash : List Nat → List Nat) (i : Nat) :
    List IpfsBlock → Except ValidateErr Unit
  | [] => .ok ()
  | b :: rest =>
    match cidFromBytes b.cid with
    | none => .error (.cidParse i)
    | some actual =>
      if calculateBlockCid hash b.data ≠ actual then .error (.cidMismatch i)
      else do
        checkLinks i 0 b.links
        validateFrom hash (i + 1) rest

/-- Models `IpfsProcessor::validate_blocks` (ipfs.rs 239-280). -/
def validateBlocks (hash : List Nat → List Nat) (blocks : List IpfsBlock) :
    Except ValidateErr Unit :=
  validateFrom hash 0 blocks

/-- Models `IpfsProcessor::get_total_size` (ipfs.rs 283-285) and the
`total_len` computation of the guest byte-range arm. -/
def totalLength (blocks : List IpfsBlock) : Nat :=
  (blocks.map (fun b => b.data.length)).sum

/-- Models `concatenate_blocks` (ipfs_content_verifier.rs 126-132) and the
ad-hoc concatenations in proof.rs. -/
def concatBlocks (blocks : List IpfsBlock) : List Nat :=
  (blocks.map (fun b => b.data)).flatten


/-- Host-side content selection (`ContentSelection`, src/backend/core/src/lib.rs
111-120).  The field named `end` in the source is called `stop` here because
`end` is a Lean keyword. -/
inductive ContentSelection where
  | byteRange (start stop : Nat)
  | pattern (content : List Nat)
  | regex (pat : String)
  | multiple (selections : List ContentSelection)
  deriving Repr

/-- The usize modulus on the 64-bit targets this crate builds for. -/
def usizeMod : Nat := 2 ^ 64

/-- Wrapping usize subtraction, the release-mode semantics of `end - start` in
`ContentSelection::estimated_size` (types.rs 311). -/
def usizeSub (a b : Nat) : Nat :=
  (usizeMod + a % usizeMod - b % usizeMod) % usizeMod

mutual

/-- Models `ContentSelection::is_valid` (types.rs 323-332). -/
def ContentSelection.isValid : ContentSelection → Bool
  | .byteRange start stop => decide (start < stop)
  | .pattern content => !content.isEmpty
  | .regex pat => !pat.isEmpty
  | .multiple selections => !selections.isEmpty && isValidAll selections

/-- Unfolding of `selections.iter().all(|s| s.is_valid())` in types.rs 329. -/
def ContentSelection.isValidAll : List ContentSelection → Bool
  | [] => true
  | s :: rest => s.isValid && isValidAll rest

end

mutual

/-- Models `ContentSelection::estimated_size` (types.rs 309-320). -/
def ContentSelection.estimatedSize : ContentSelection → Option Nat
  | .byteRange start stop => some (usizeSub stop start)
  | .pattern content => some content.length
  | .regex _ => none
  | .multiple selections => estimatedSizeSum selections

/-- Unfolding of `selections.iter().map(|s| s.estimated_size()).sum::<Option<usize>>()`
in types.rs 315-317: `none` propagates, otherwise the estimates are summed. -/
def ContentSelection.estimatedSizeSum : List ContentSelection → Option Nat
  | [] => some 0
  | s :: rest =>
    match s.estimatedSize, estimatedSizeSum rest with
    | some a, some b => some (a + b)
    | _, _ => none

end

/-- Validity of a selection as the specification states it, for comparison
with the source's `is_valid`: a byte range is valid iff `start < end`, a
pattern iff its content is non-empty, a regex iff its pattern string is
non-empty, and a multiple selection iff its list is non-empty and every
member is valid. -/
inductive ValidSel : ContentSelection → Prop
  | byteRange {s e : Nat} : s < e → ValidSel (.byteRange s e)
  | pattern {c : List Nat} : c ≠ [] → ValidSel (.pattern c)
  | regex {p : String} : p ≠ "" → ValidSel (.regex p)
  | multiple {l : List ContentSelection} :
      l ≠ [] → (∀ s ∈ l, ValidSel s) → ValidSel (.multiple l)

/-- Error outcomes of content extraction.  Rust-side panics (guest `panic!`
and `expect`, and host out-of-order slice indexing) are modelled as explicit
error values. -/
inductive ExtractErr where
  | noContent
  | invalidRange
  | patternNotFound
  | invalidUtf8
  | invalidRegex
  | regexNotFound
  | xpathFailed
  | slicePanic
  | unhandledVariant
  deriving DecidableEq, Repr

/-- Models the Rust slice expression `&data[a..b]`: out-of-order or
out-of-bounds indices are a panic. -/
def rustSlice (d : List Nat) (a b : Nat) : Option (List Nat) :=
  if a ≤ b ∧ b ≤ d.length then some ((d.drop a).take (b - a)) else none

/-- Per-block slicing loop shared verbatim by `ProofGenerator::extract_byte_range`
(proof.rs 310-325) and the ByteRange arm of the guest `extract_content`
(ipfs_content_verifier.rs 145-161): walk the blocks keeping a running offset
`pos`; for each block overlapping `[start, stop)` slice the overlapping
sub-range and append it; stop as soon as the offset reaches `stop`.  A `none`
result models a Rust slice panic (reachable only when `start ≥ stop`). -/
def byteRangeLoop (start stop : Nat) : List (List Nat) → Nat → Option (List Nat)
  | [], _ => some []
  | d :: rest, pos =>
    let blockEnd := pos + d.length
    let piece : Option (List Nat) :=
      if blockEnd > start ∧ pos < stop then
        rustSlice d (if pos < start then start - pos else 0)
          (if blockEnd > stop then stop - pos else d.length)
      else some []
    match piece with
    | none => none
    | some p =>
      if blockEnd ≥ stop then some p
      else (byteRangeLoop start stop rest blockEnd).map (fun r => p ++ r)

/-- Models `ProofGenerator::extract_byte_range` (proof.rs 301-334): run the
slicing loop with no range validation, and fail with a content-selection
error exactly when the accumulated content is empty. -/
def extractByteRange (blocks : List IpfsBlock) (start stop : Nat) :
    Except ExtractErr (List Nat) :=
  match byteRangeLoop start stop (blocks.map (fun b => b.data)) 0 with
  | none => .error .slicePanic
  | some content => if content = [] then .error .noContent else .ok content

/-- Models the ByteRange arm of the guest `extract_content`
(ipfs_content_verifier.rs 136-162): panic unless
`start < total_len ∧ end ≤ total_len ∧ start < end`, then run the slicing
loop. -/
def guestExtractByteRange (blocks : List IpfsBlock) (start stop : Nat) :
    Except ExtractErr (List Nat) :=
  let totalLen := totalLength blocks
  if start ≥ totalLen ∨ stop > totalLen ∨ start ≥ stop then .error .invalidRange
  else
    match byteRangeLoop start stop (blocks.map (fun b => b.data)) 0 with
    | none => .error .slicePanic
    | some content => .ok content

/-- Models `find_pattern`, identical in proof.rs 359-371 and
ipfs_content_verifier.rs 222-233: index of the first occurrence of `pat` in
`data`, and `none` for an empty or over-long pattern. -/
def findPattern (data pat : List Nat) : Option Nat :=
  if pat = [] ∨ data.length < pat.length then none
  else (List.range (data.length - pat.length + 1)).find?
    (fun i => decide ((data.drop i).take pat.length = pat))

/-- Models `ProofGenerator::extract_pattern` (proof.rs 337-356): search the
concatenation of all block data for the pattern; the extracted bytes are the
pattern itself. -/
def extractPattern (blocks : List IpfsBlock) (pat : List Nat) :
    Except ExtractErr (List Nat) :=
  match findPattern (concatBlocks blocks) pat with
  | some _ => .ok pat
  | none => .error .patternNotFound

mutual

/-- Models `ProofGenerator::extract_content` (proof.rs 277-298).  The source's
match covers only the ByteRange, Pattern and Multiple variants of the
four-variant host `ContentSelection`; the missing Regex arm (a non-exhaustive
match, which Rust rejects at compile time) is modelled as an explicit
`unhandledVariant` error. -/
def extractContent (blocks : List IpfsBlock) : ContentSelection → Except ExtractErr (List Nat)
  | .byteRange start stop => extractByteRange blocks start stop
  | .pattern content => extractPattern blocks content
  | .regex _ => .error .unhandledVariant
  | .multiple selections => extractContentMulti blocks selections

/-- Unfolding of the Multiple arm loop of proof.rs 289-295: extract each
member in order and append the results. -/
def extractContentMulti (blocks : List IpfsBlock) :
    List ContentSelection → Except ExtractErr (List Nat)
  | [] => .ok []
  | s :: rest => do
    let a ← extractContent blocks s
    let b ← extractContentMulti blocks rest
    .ok (a ++ b)

end

/-- Guest-side content selection (ipfs_content_verifier.rs 49-60), which also
has an XPath variant. -/
inductive GSel where
  | byteRange (start stop : Nat)
  | pattern (content : List Nat)
  | regex (pat : String)
  | xpath (selector : String)
  | multiple (selections : List GSel)
  deriving Repr

/-- UTF-8 bytes of a matched substring, as in `mat.as_str().as_bytes().to_vec()`. -/
def strBytes (s : String) : List Nat :=
  s.toUTF8.toList.map (fun b => b.toNat)

section GuestExtract

variable {R : Type}
variable (utf8Decode : List Nat → Option String)
variable (rxCompile : String → Option R)
variable (rxFirstMatch : R → String → Option String)
variable (xpathEval : String → String → Except ExtractErr (List Nat))

mutual

/-- Models the guest `extract_content` (ipfs_content_verifier.rs 134-220).
The `regex` crate is modelled by the parameters `rxCompile` (compilation,
`none` for an invalid pattern) and `rxFirstMatch` (first match, as in
`re.find`); `std::str::from_utf8` by `utf8Decode`; the `sxd_xpath` engine by
`xpathEval` (the whole XPath arm after the UTF-8 check, unused by any claim).
Guest panics and `expect` failures are the corresponding error values. -/
def guestExtractContent (blocks : List IpfsBlock) : GSel → Except ExtractErr (List Nat)
  | .byteRange start stop => guestExtractByteRange blocks start stop
  | .multiple selections =>
    guestExtractMulti blocks selections
  | .pattern content =>
    match findPattern (concatBlocks blocks) content with
    | some _ => .ok content
    | none => .error .patternNotFound
  | .regex pat =>
    match utf8Decode (concatBlocks blocks) with
    | none => .error .invalidUtf8
    | some s =>
      match rxCompile pat with
      | none => .error .invalidRegex
      | some re =>
        match rxFirstMatch re s with
        | some m => .ok (strBytes m)
        | none => .error .regexNotFound
  | .xpath selector =>
    match utf8Decode (concatBlocks blocks) with
    | none => .error .invalidUtf8
    | some s => xpathEval selector s

/-- Unfolding of the guest Multiple arm (ipfs_content_verifier.rs 164-170). -/
def guestExtractMulti (blocks : List IpfsBlock) : List GSel → Except ExtractErr (List Nat)
  | [] => .ok []
  | s :: rest => do
    let a ← guestExtractContent blocks s
    let b ← guestExtractMulti blocks rest
    .ok (a ++ b)

end

end GuestExtract

/-- Compression choice recorded in proof data (`CompressionType`, types.rs 53-60). -/
inductive CompressionType where
  | nocompress
  | gzip
  | zstd
  deriving DecidableEq, Repr

/-- Security parameters of a proof (`SecurityParameters`, types.rs 119-130). -/
structure SecurityParameters where
  securityLevel : Nat
  hashFunction : String
  proofSystem : String
  risc0Version : String
  formalVerification : Bool
  deriving Repr

/-- Performance metrics of a proof (`PerformanceMetrics`, types.rs 100-115).
The `compression_ratio: Option<f64>` field is floating point and is consulted
by nothing the claims touch; it is omitted. -/
structure PerformanceMetrics where
  generationTimeMs : Nat
  fileProcessingTimeMs : Nat
  zkGenerationTimeMs : Nat
  peakMemoryBytes : Nat
  zkCycles : Nat
  proofSizeBytes : Nat
  deriving Repr

/-- File information (`FileInfo`, types.rs 81-96). -/
structure FileInfo where
  filename : Option String
  size : Nat
  mimeType : Option String
  fileHash : List Nat
  ipfsCid : String
  blockCount : Nat
  avgBlockSize : Nat
  deriving Repr

/-- Proof metadata (`ProofMetadata`, types.rs 64-77), restricted to the
sub-records the verifier consults (`guest_metadata`, `environment` and the
`custom` map are carried opaquely by the source verifier and omitted here). -/
structure ProofMetadata where
  fileInfo : FileInfo
  performance : PerformanceMetrics
  security : SecurityParameters
  deriving Repr

/-- Zero-knowledge proof data (`ZkProofData`, types.rs 40-49). -/
structure ZkProofData where
  receipt : List Nat
  publicInputs : List Nat
  formatVersion : String
  compression : Option CompressionType
  deriving Repr

/-- A complete proof artifact (`Proof`, types.rs 19-36).  `created_at` is a
`DateTime<Utc>` in the source; only its age in seconds relative to the
verification time matters, so it is modelled as integer seconds and
`verify_detailed` takes the current time `now` as a parameter.  The
`[u8; 32]` hash fields are byte lists here, which keeps the source's (in Rust
vacuous) length-32 structure check meaningful. -/
structure Proof where
  id : String
  zkProof : ZkProofData
  metadata : ProofMetadata
  contentSelection : ContentSelection
  contentHash : List Nat
  rootHash : List Nat
  createdAt : Int
  version : String
  deriving Repr

/-- Types of custom verification rules (`VerificationRuleType`, verifier.rs
50-59).  The function-pointer variant returns `Except String Bool`, modelling
`Result<bool>` with the displayed error message. -/
inductive VerificationRuleType where
  | minSecurityLevel (n : Nat)
  | maxProofSize (n : Nat)
  | requiredProofSystem (s : String)
  | custom (f : Proof → Except String Bool)

/-- A custom verification rule (`VerificationRule`, verifier.rs 42-46). -/
structure VerificationRule where
  name : String
  description : String
  ruleType : VerificationRuleType

/-- Verifier configuration (`VerificationConfig`, verifier.rs 27-38). -/
structure VerificationConfig where
  strictVerification : Bool
  includeVerificationSteps : Bool
  maxProofAgeSeconds : Option Nat
  verifyMetadata : Bool
  customRules : List VerificationRule

/-- Models `VerificationConfig::default` (verifier.rs 71-81). -/
def VerificationConfig.default : VerificationConfig where
  strictVerification := true
  includeVerificationSteps := false
  maxProofAgeSeconds := some (30 * 24 * 60 * 60)
  verifyMetadata := true
  customRules := []

/-- A verification step (`VerificationStep`, types.rs 212-221) without its
wall-clock `duration_ms` field. -/
structure VerificationStep where
  name : String
  passed : Bool
  details : Option String
  deriving DecidableEq, Repr

/-- A verification result (`VerificationResult`, types.rs 173-186) restricted
to its decision content: `verified_at`, `verification_time_ms` and
`verifier_info` record wall-clock time and build environment and are not
modelled. -/
structure VerificationResult where
  isValid : Bool
  warnings : List String
  steps : List VerificationStep
  deriving DecidableEq, Repr

/-- Error outcome of `verify_detailed`: the serialization error raised when
the stored receipt bytes do not decode (verifier.rs 293-297). -/
inductive VerifyErr where
  | serializationErr
  deriving DecidableEq, Repr

/-- Models `ProofVerifier::verify_proof_structure` (verifier.rs 258-288):
non-empty version, age within `max_proof_age_seconds` when set, non-empty
receipt bytes, valid content selection, and 32-byte hash fields. -/
def verifyProofStructure (cfg : VerificationConfig) (now : Int) (proof : Proof) : Bool :=
  if proof.version = "" then false
  else if (match cfg.maxProofAgeSeconds with
    | some maxAge => decide (now - proof.createdAt > (maxAge : Int))
    | none => false) then false
  else if proof.zkProof.receipt = [] then false
  else if !proof.contentSelection.isValid then false
  else if proof.contentHash.length ≠ 32 ∨ proof.rootHash.length ≠ 32 then false
  else true

/-- Models `ProofVerifier::verify_cryptographic_proof` (verifier.rs 291-310):
receipt bytes that do not decode raise a serialization error; a decoded
receipt that fails `receipt.verify` yields `Ok(false)`.  `decodeReceipt`
models `bincode::deserialize` and `receiptVerify` models
`Receipt::verify(IPFS_CONTENT_VERIFIER_ID).is_ok()`. -/
def verifyCryptographicProof {R : Type} (decodeReceipt : List Nat → Option R)
    (receiptVerify : R → Bool) (proof : Proof) : Except VerifyErr Bool :=
  match decodeReceipt proof.zkProof.receipt with
  | none => .error .serializationErr
  | some r => .ok (receiptVerify r)

/-- Models `ProofVerifier::verify_content_hash` (verifier.rs 313-324):
SHA-256 of the claimed content must equal the stored content hash. -/
def verifyContentHash (sha256 : List Nat → List Nat) (proof : Proof)
    (claimedContent : List Nat) : Bool :=
  decide (sha256 claimedContent = proof.contentHash)

/-- Models `ProofVerifier::verify_metadata` (verifier.rs 327-365): warnings
for low security level, unexpected proof system, over-long generation time,
over-large proof and zero block count, with the first two and the last
flipping validity under strict verification. -/
def verifyMetadata (cfg : VerificationConfig) (proof : Proof) : Bool × List String :=
  let w1 : List String :=
    if proof.metadata.security.securityLevel < 128 then
      ["Security level below recommended minimum (128 bits)"] else []
  let v1 : Bool :=
    !(decide (proof.metadata.security.securityLevel < 128) && cfg.strictVerification)
  let w2 : List String :=
    if proof.metadata.security.proofSystem ≠ "Risc0" then ["Unexpected proof system"] else []
  let v2 : Bool :=
    !(decide (proof.metadata.security.proofSystem ≠ "Risc0") && cfg.strictVerification)
  let w3 : List String :=
    if proof.metadata.performance.generationTimeMs > 3600000 then
      ["Unusually long proof generation time"] else []
  let w4 : List String :=
    if proof.metadata.performance.proofSizeBytes > 100 * 1024 * 1024 then
      ["Unusually large proof size"] else []
  let w5 : List String :=
    if proof.metadata.fileInfo.blockCount = 0 then ["No IPFS blocks in file info"] else []
  let v5 : Bool :=
    !(decide (proof.metadata.fileInfo.blockCount = 0) && cfg.strictVerification)
  (v1 && v2 && v5, w1 ++ w2 ++ w3 ++ w4 ++ w5)

/-- Rule loop of `ProofVerifier::verify_custom_rules` (verifier.rs 372-400):
each rule is evaluated against the proof; a failing rule pushes a warning
naming the rule, and flips validity when `strict` holds.  An erroring
`Custom` rule additionally pushes its error message first. -/
def verifyCustomRulesGo (strict : Bool) (proof : Proof) :
    List VerificationRule → Bool × List String
  | [] => (true, [])
  | rule :: rest =>
    let evalRule : Bool × List String :=
      match rule.ruleType with
      | .minSecurityLevel n => (decide (proof.metadata.security.securityLevel ≥ n), [])
      | .maxProofSize n => (decide (proof.metadata.performance.proofSizeBytes ≤ n), [])
      | .requiredProofSystem s => (decide (proof.metadata.security.proofSystem = s), [])
      | .custom f =>
        match f proof with
        | .ok b => (b, [])
        | .error e => (false, ["Custom rule " ++ rule.name ++ " failed: " ++ e])
    let failWarn : List String :=
      if evalRule.1 then []
      else ["Custom rule " ++ rule.name ++ " failed: " ++ rule.description]
    let restResult := verifyCustomRulesGo strict proof rest
    ((evalRule.1 || !strict) && restResult.1, evalRule.2 ++ failWarn ++ restResult.2)

/-- Models `ProofVerifier::verify_custom_rules` (verifier.rs 368-403). -/
def verifyCustomRules (cfg : VerificationConfig) (proof : Proof) : Bool × List String :=
  verifyCustomRulesGo cfg.strictVerification proof cfg.customRules

/-- Models `ProofVerifier::create_verification_result` (verifier.rs 406-429):
the recorded steps are dropped unless `include_verification_steps` is set. -/
def mkVerificationResult (cfg : VerificationConfig) (isValid : Bool)
    (warnings : List String) (steps : List VerificationStep) : VerificationResult where
  isValid := isValid
  warnings := warnings
  steps := if cfg.includeVerificationSteps then steps else []

/-- Steps 4 and 5 of `verify_detailed` (verifier.rs 170-229): metadata
verification when enabled (failure is terminal only under strict
verification), then custom rules when any are configured (likewise), then
the all-passed result. -/
def verifyDetailedTail (cfg : VerificationConfig) (proof : Proof)
    (steps : List VerificationStep) : Except VerifyErr VerificationResult :=
  let afterMeta : Option VerificationResult × List String × List VerificationStep :=
    if cfg.verifyMetadata then
      let m := verifyMetadata cfg proof
      let steps := steps ++ [⟨"Metadata Verification", m.1,
        if m.1 then none else some "Metadata verification failed"⟩]
      if cfg.strictVerification && !m.1 then
        (some (mkVerificationResult cfg false m.2 steps), m.2, steps)
      else (none, m.2, steps)
    else (none, [], steps)
  match afterMeta with
  | (some result, _, _) => .ok result
  | (none, warnings, steps) =>
    if cfg.customRules.isEmpty then
      .ok (mkVerificationResult cfg true warnings steps)
    else
      let r := verifyCustomRules cfg proof
      let warnings := warnings ++ r.2
      let steps := steps ++ [⟨"Custom Rules Verification", r.1,
        if r.1 then none else some "Custom rules verification failed"⟩]
      if cfg.strictVerification && !r.1 then
        .ok (mkVerificationResult cfg false warnings steps)
      else
        .ok (mkVerificationResult cfg true warnings steps)

/-- Models `ProofVerifier::verify_detailed` (verifier.rs 99-230): the
structure, cryptographic and content-hash stages each short-circuit to an
invalid result; the metadata and custom-rule stages are delegated to
`verifyDetailedTail`.  Statistics updates do not influence any result and are
not modelled. -/
def verifyDetailed {R : Type} (decodeReceipt : List Nat → Option R)
    (receiptVerify : R → Bool) (sha256 : List Nat → List Nat)
    (cfg : VerificationConfig) (now : Int) (proof : Proof)
    (claimedContent : List Nat) : Except VerifyErr VerificationResult :=
  let structureValid := verifyProofStructure cfg now proof
  let steps := [⟨"Proof Structure Validation", structureValid,
    if structureValid then none else some "Invalid proof structure"⟩]
  if !structureValid then .ok (mkVerificationResult cfg false [] steps)
  else
    match verifyCryptographicProof decodeReceipt receiptVerify proof with
    | .error e => .error e
    | .ok cryptoValid =>
      let steps := steps ++ [⟨"Cryptographic Proof Verification", cryptoValid,
        if cryptoValid then none else some "Cryptographic verification failed"⟩]
      if !cryptoValid then .ok (mkVerificationResult cfg false [] steps)
      else
        let contentValid := verifyContentHash sha256 proof claimedContent
        let steps := steps ++ [⟨"Content Hash Verification", contentValid,
          if contentValid then none else some "Content hash mismatch"⟩]
        if !contentValid then .ok (mkVerificationResult cfg false [] steps)
        else verifyDetailedTail cfg proof steps

/-- Models `ProofVerifier::verify_batch` (verifier.rs 243-255): run
`verify_detailed` per pair in input order, collecting one result per pair. -/
def verifyBatch {R : Type} (decodeReceipt : List Nat → Option R)
    (receiptVerify : R → Bool) (sha256 : List Nat → List Nat)
    (cfg : VerificationConfig) (now : Int) :
    List (Proof × List Nat) → Except VerifyErr (List VerificationResult)
  | [] => .ok []
  | (proof, content) :: rest => do
    let r ← verifyDetailed decodeReceipt receiptVerify sha256 cfg now proof content
    let rs ← verifyBatch decodeReceipt receiptVerify sha256 cfg now rest
    .ok (r :: rs)

/-- Both parts of `validate_blocks` hold of a single block: its stored cid
parses back to exactly the cid recomputed from its data, and none of its
links has an empty name or an empty cid. -/
def GoodBlock (hash : List Nat → List Nat) (b : IpfsBlock) : Prop :=
  cidFromBytes b.cid = some (calculateBlockCid hash b.data) ∧
    ∀ l ∈ b.links, l.name ≠ "" ∧ l.cid ≠ []

/-- Sample security parameters, mirroring `create_test_proof` in the
verifier.rs tests (128-bit security, proof system "Risc0"). -/
def sampleSecurity : SecurityParameters :=
  ⟨128, "SHA-256", "Risc0", "1.2", false⟩

/-- Sample performance metrics, mirroring `create_test_proof`. -/
def samplePerformance : PerformanceMetrics :=
  ⟨1000, 100, 900, 1048576, 10000, 1024⟩

/-- Sample file information, mirroring `create_test_proof`. -/
def sampleFileInfo : FileInfo :=
  ⟨some "test.txt", 100, some "text/plain", List.replicate 32 0, "QmTest", 1, 100⟩

/-- Sample proof artifact, mirroring `create_test_proof` in the verifier.rs
tests: non-empty receipt, valid pattern selection, 32-byte hashes. -/
def sampleProof : Proof where
  id := "proof-1"
  zkProof := ⟨[1, 2, 3, 4], [5, 6, 7, 8], "1.0", some .nocompress⟩
  metadata := ⟨sampleFileInfo, samplePerformance, sampleSecurity⟩
  contentSelection := .pattern [116, 101, 115, 116]
  contentHash := List.replicate 32 0
  rootHash := List.replicate 32 1
  createdAt := 0
  version := "0.1.0"


/-! ## Lemmas and claim theorems -/

theorem chunkify_flatten (mbs : Nat) (hm : 0 < mbs) (content : List Nat) :
    (chunkify mbs content).flatten = content := by
  rw [chunkify]
  split
  · rename_i h
    rcases h with h | h
    · omega
    · simp [h]
  · have ih := chunkify_flatten mbs hm (content.drop mbs)
    simp [List.flatten_cons, ih, List.take_append_drop]
termination_by content.length
decreasing_by
  rename_i h
  have h2 : content ≠ [] := fun hh => h (Or.inr hh)
  have h3 : 0 < content.length := List.length_pos.mpr h2
  simp only [List.length_drop]
  omega

theorem chunkify_length_le (mbs : Nat) (content : List Nat) :
    ∀ c ∈ chunkify mbs content, c.length ≤ mbs := by
  rw [chunkify]
  split
  · simp
  · intro c hc
    rcases List.mem_cons.mp hc with rfl | hc
    · simp [List.length_take]
    · exact chunkify_length_le mbs (content.drop mbs) c hc
termination_by content.length
decreasing_by
  have h : ¬(mbs = 0 ∨ content = []) := by assumption
  have h2 : content ≠ [] := fun hh => h (Or.inr hh)
  have h3 : 0 < content.length := List.length_pos.mpr h2
  simp only [List.length_drop]
  omega

theorem chunkify_eq_nil_iff (mbs : Nat) (hm : 0 < mbs) (content : List Nat) :
    chunkify mbs content = [] ↔ content = [] := by
  rw [chunkify]
  split
  · rename_i h
    rcases h with h | h
    · omega
    · simp [h]
  · rename_i h
    simp only [reduceCtorEq, false_iff]
    exact fun hh => h (Or.inr hh)

theorem cidFromBytes_toBytes (c : CidV) : cidFromBytes c.toBytes = some c := rfl

theorem CidV.toBytes_inj {c1 c2 : CidV} (h : c1.toBytes = c2.toBytes) : c1 = c2 := by
  cases c1
  cases c2
  simp only [CidV.toBytes, List.cons.injEq] at h
  simp only [CidV.mk.injEq]
  exact ⟨h.2.1, h.2.2.2.2⟩

theorem findBlockByCid_data (hash : List Nat → List Nat) (hinj : Function.Injective hash)
    (full : List IpfsBlock)
    (hcons : ∀ b ∈ full, b.cid = (calculateBlockCid hash b.data).toBytes)
    (d : List Nat) (b2 : IpfsBlock)
    (hfind : findBlockByCid full ((calculateBlockCid hash d).toBytes) = some b2) :
    b2.data = d := by
  have hb2mem : b2 ∈ full := List.mem_of_find?_eq_some hfind
  have hb2cid : b2.cid = (calculateBlockCid hash d).toBytes := by
    have := List.find?_some hfind
    simpa using this
  rw [hcons b2 hb2mem] at hb2cid
  have hcid : calculateBlockCid hash b2.data = calculateBlockCid hash d :=
    CidV.toBytes_inj hb2cid
  have hdig : hash b2.data = hash d := congrArg CidV.digest hcid
  exact hinj hdig

theorem gatherLinkedData_enumFrom (hash : List Nat → List Nat)
    (hinj : Function.Injective hash) (full : List IpfsBlock)
    (hcons : ∀ b ∈ full, b.cid = (calculateBlockCid hash b.data).toBytes)
    (cbs : List IpfsBlock) :
    ∀ n : Nat, (∀ b ∈ cbs, b ∈ full) →
    gatherLinkedData full ((cbs.enumFrom n).map (fun p =>
      { name := "chunk_" ++ toString p.1, cid := p.2.cid,
        size := p.2.data.length : BlockLink })) =
      .ok ((cbs.map (fun b => b.data)).flatten) := by
  induction cbs with
  | nil => intro n _; simp [List.enumFrom, gatherLinkedData]
  | cons b cbs ih =>
    intro n hmem
    have hbfull : b ∈ full := hmem b (List.mem_cons_self b cbs)
    have hsome : (findBlockByCid full b.cid).isSome := by
      rw [findBlockByCid, List.find?_isSome]
      exact ⟨b, hbfull, by simp⟩
    obtain ⟨b2, hb2⟩ := Option.isSome_iff_exists.mp hsome
    have hdata : b2.data = b.data := by
      apply findBlockByCid_data hash hinj full hcons b.data b2
      rw [← hcons b hbfull]
      exact hb2
    simp only [List.enumFrom, List.map_cons, gatherLinkedData, hb2]
    rw [ih (n + 1) (fun x hx => hmem x (List.mem_cons_of_mem b hx))]
    simp only [hdata]
    rfl

theorem createBlocks_consistent (hash : List Nat → List Nat) (mbs : Nat)
    (content : List Nat) :
    ∀ b ∈ createBlocks hash mbs content,
      b.cid = (calculateBlockCid hash b.data).toBytes := by
  intro b hb
  unfold createBlocks at hb
  simp only at hb
  split at hb
  · rcases List.mem_cons.mp hb with rfl | hb
    · rfl
    · obtain ⟨d, _, rfl⟩ := List.mem_map.mp hb
      rfl
  · obtain ⟨d, _, rfl⟩ := List.mem_map.mp hb
    rfl


theorem reconstructContent_multi (root : IpfsBlock) (rest : List IpfsBlock) (h : rest ≠ []) :
    reconstructContent (root :: rest) =
      if root.links = [] then .ok (((root :: rest).map (fun x => x.data)).flatten)
      else gatherLinkedData (root :: rest) root.links := by
  cases rest with
  | nil => exact absurd rfl h
  | cons b bs => rfl

/-- Claim C1: for every input byte string, reconstructing the blocks produced
by `create_blocks` returns exactly the original bytes, including when the file
is split into several chunks and a synthesized root block with links is
prepended.  Stated for any positive maximum block size (default 256 KiB) and
any injective digest. -/
theorem reconstruct_createBlocks (hash : List Nat → List Nat)
    (hinj : Function.Injective hash) (mbs : Nat) (hm : 0 < mbs)
    (content : List Nat) :
    reconstructContent (createBlocks hash mbs content) = .ok content := by
  have hflat := chunkify_flatten mbs hm content
  cases hch : chunkify mbs content with
  | nil =>
    have hc : content = [] := (chunkify_eq_nil_iff mbs hm content).mp hch
    have he : createBlocks hash mbs content = [] := by
      unfold createBlocks
      rw [hch]
      rfl
    rw [he, hc]
    rfl
  | cons c1 rest =>
    cases rest with
    | nil =>
      have he : createBlocks hash mbs content =
          [{ data := c1, cid := (calculateBlockCid hash c1).toBytes, links := [] }] := by
        unfold createBlocks
        rw [hch]
        rfl
      rw [hch] at hflat
      simp only [List.flatten_cons, List.flatten_nil, List.append_nil] at hflat
      rw [he]
      simp [reconstructContent, hflat]
    | cons c2 rest2 =>
      have hcreate : createBlocks hash mbs content =
          createRootBlock hash ((c1 :: c2 :: rest2).map (fun d =>
            { data := d, cid := (calculateBlockCid hash d).toBytes, links := [] })) ::
          (c1 :: c2 :: rest2).map (fun d =>
            { data := d, cid := (calculateBlockCid hash d).toBytes, links := [] }) := by
        unfold createBlocks
        rw [hch]
        rw [if_pos (by simp)]
      have hcons := createBlocks_consistent hash mbs content
      rw [hcreate] at hcons
      set cbs := (c1 :: c2 :: rest2).map (fun d =>
        ({ data := d, cid := (calculateBlockCid hash d).toBytes, links := [] } : IpfsBlock))
        with hcbs
      have hlinks : (createRootBlock hash cbs).links ≠ [] := by
        simp [createRootBlock, hcbs]
      have hlinkeq : (createRootBlock hash cbs).links = (cbs.enumFrom 0).map (fun p =>
          { name := "chunk_" ++ toString p.1, cid := p.2.cid,
            size := p.2.data.length : BlockLink }) := rfl
      have hgather := gatherLinkedData_enumFrom hash hinj (createRootBlock hash cbs :: cbs)
        hcons cbs 0 (fun b hb => List.mem_cons_of_mem _ hb)
      have hdatamap : cbs.map (fun b => b.data) = c1 :: c2 :: rest2 := by
        rw [hcbs, List.map_map]
        simp only [List.map_cons]
        exact congrArg₂ _ rfl (congrArg₂ _ rfl (List.map_id rest2))
      rw [hch] at hflat
      rw [hcreate, reconstructContent_multi _ _ (by rw [hcbs]; simp)]
      rw [if_neg hlinks, hlinkeq, hgather, hdatamap, hflat]

/-- Claim C6: every chunk produced by `create_blocks` has data no larger than
the configured maximum block size (default 256 KiB); whenever more than one
block results, the block at index 0 is a root whose data is, for each chunk
in order, the chunk cid followed by its length as 8 little-endian bytes, and
whose links name chunk `i` as `chunk_<i>` with that chunk cid and size. -/
theorem createBlocks_root_structure (hash : List Nat → List Nat) (mbs : Nat)
    (hm : 0 < mbs) (content : List Nat) :
    (∀ b ∈ createBlocks hash mbs content, b.links = [] → b.data.length ≤ mbs) ∧
    (∀ root rest, createBlocks hash mbs content = root :: rest →
      1 < (createBlocks hash mbs content).length →
      root.data = (rest.map (fun b => b.cid ++ u64le b.data.length)).flatten ∧
      root.links = rest.enum.map (fun p =>
        { name := "chunk_" ++ toString p.1, cid := p.2.cid,
          size := p.2.data.length : BlockLink })) := by
  have hsz := chunkify_length_le mbs content
  cases hch : chunkify mbs content with
  | nil =>
    have he : createBlocks hash mbs content = [] := by
      unfold createBlocks; rw [hch]; rfl
    rw [he]
    constructor
    · intro b hb; exact absurd hb (List.not_mem_nil b)
    · intro root rest hcons; exact absurd hcons (by simp)
  | cons c1 rest =>
    cases rest with
    | nil =>
      have he : createBlocks hash mbs content =
          [{ data := c1, cid := (calculateBlockCid hash c1).toBytes, links := [] }] := by
        unfold createBlocks; rw [hch]; rfl
      rw [he]
      constructor
      · intro b hb _
        rcases List.mem_cons.mp hb with rfl | hb
        · exact hsz c1 (hch ▸ List.mem_cons_self c1 [])
        · exact absurd hb (List.not_mem_nil b)
      · intro root rest _ hlen
        simp at hlen
    | cons c2 rest2 =>
      have hcreate : createBlocks hash mbs content =
          createRootBlock hash ((c1 :: c2 :: rest2).map (fun d =>
            { data := d, cid := (calculateBlockCid hash d).toBytes, links := [] })) ::
          (c1 :: c2 :: rest2).map (fun d =>
            { data := d, cid := (calculateBlockCid hash d).toBytes, links := [] }) := by
        unfold createBlocks
        rw [hch]
        rw [if_pos (by simp)]
      rw [hcreate]
      constructor
      · intro b hb hblinks
        rcases List.mem_cons.mp hb with rfl | hb
        · simp [createRootBlock] at hblinks
        · obtain ⟨d, hd, rfl⟩ := List.mem_map.mp hb
          exact hsz d (hch ▸ hd)
      · intro root rest hcons _
        injection hcons with h1 h2
        subst h1
        subst h2
        exact ⟨rfl, rfl⟩

theorem checkLinks_ok_iff (i : Nat) (links : List BlockLink) : ∀ j : Nat,
    checkLinks i j links = .ok () ↔ ∀ l ∈ links, l.name ≠ "" ∧ l.cid ≠ [] := by
  induction links with
  | nil => intro j; simp [checkLinks]
  | cons l ls ih =>
    intro j
    rw [checkLinks]
    by_cases hn : l.name = ""
    · rw [if_pos hn]
      simp only [reduceCtorEq, false_iff]
      intro hall
      exact (hall l (List.mem_cons_self l ls)).1 hn
    · rw [if_neg hn]
      by_cases hc : l.cid = []
      · rw [if_pos hc]
        simp only [reduceCtorEq, false_iff]
        intro hall
        exact (hall l (List.mem_cons_self l ls)).2 hc
      · rw [if_neg hc]
        rw [ih (j + 1)]
        constructor
        · intro hall x hx
          rcases List.mem_cons.mp hx with rfl | hx
          · exact ⟨hn, hc⟩
          · exact hall x hx
        · intro hall x hx
          exact hall x (List.mem_cons_of_mem l hx)

theorem checkLinks_error_bad (i : Nat) (links : List BlockLink) : ∀ j i2 j2 : Nat,
    (checkLinks i j links = .error (.emptyLinkName i2 j2) ∨
     checkLinks i j links = .error (.emptyLinkCid i2 j2)) →
    i2 = i ∧ ∃ l ∈ links, l.name = "" ∨ l.cid = [] := by
  induction links with
  | nil =>
    intro j i2 j2 h
    rcases h with h | h <;> simp [checkLinks] at h
  | cons l ls ih =>
    intro j i2 j2 h
    rw [checkLinks] at h
    by_cases hn : l.name = ""
    · rw [if_pos hn] at h
      rcases h with h | h
      · injection h with h
        injection h with h1 _
        exact ⟨h1.symm, l, List.mem_cons_self l ls, Or.inl hn⟩
      · injection h with h
        exact absurd h (by simp)
    · rw [if_neg hn] at h
      by_cases hc : l.cid = []
      · rw [if_pos hc] at h
        rcases h with h | h
        · injection h with h
          exact absurd h (by simp)
        · injection h with h
          injection h with h1 _
          exact ⟨h1.symm, l, List.mem_cons_self l ls, Or.inr hc⟩
      · rw [if_neg hc] at h
        obtain ⟨h1, x, hx, hbad⟩ := ih (j + 1) i2 j2 h
        exact ⟨h1, x, List.mem_cons_of_mem l hx, hbad⟩

theorem validateFrom_ok_iff (hash : List Nat → List Nat) (blocks : List IpfsBlock)
    (hcons : ∀ b ∈ blocks, cidFromBytes b.cid = some (calculateBlockCid hash b.data)) :
    ∀ n : Nat, (validateFrom hash n blocks = .ok () ↔
      ∀ b ∈ blocks, ∀ l ∈ b.links, l.name ≠ "" ∧ l.cid ≠ []) := by
  induction blocks with
  | nil => intro n; simp [validateFrom]
  | cons b rest ih =>
    intro n
    have hb := hcons b (List.mem_cons_self b rest)
    rw [validateFrom, hb]
    dsimp only
    rw [if_neg (by simp)]
    cases hcl : checkLinks n 0 b.links with
    | error e =>
      have hbad : ¬ ∀ l ∈ b.links, l.name ≠ "" ∧ l.cid ≠ [] := by
        intro hall
        rw [(checkLinks_ok_iff n b.links 0).mpr hall] at hcl
        exact absurd hcl (by simp)
      have hred : ((Except.error e : Except ValidateErr Unit) >>= fun _ =>
          validateFrom hash (n + 1) rest) = (Except.error e : Except ValidateErr Unit) := rfl
      rw [hred]
      simp only [reduceCtorEq, false_iff]
      intro hall
      exact hbad (fun l hl => hall b (List.mem_cons_self b rest) l hl)
    | ok u =>
      cases u
      have hred : ((Except.ok () : Except ValidateErr Unit) >>= fun _ =>
          validateFrom hash (n + 1) rest) = validateFrom hash (n + 1) rest := rfl
      rw [hred, ih (fun x hx => hcons x (List.mem_cons_of_mem b hx)) (n + 1)]
      constructor
      · intro h x hx l hl
        rcases List.mem_cons.mp hx with rfl | hx
        · exact (checkLinks_ok_iff n x.links 0).mp hcl l hl
        · exact h x hx l hl
      · intro hall x hx
        exact hall x (List.mem_cons_of_mem b hx)

theorem validateFrom_mismatch (hash : List Nat → List Nat) (blocks : List IpfsBlock) :
    ∀ (n i : Nat) (hi : i < blocks.length),
    (∀ k (hk : k < blocks.length), k < i → GoodBlock hash (blocks.get ⟨k, hk⟩)) →
    ∀ c, cidFromBytes (blocks.get ⟨i, hi⟩).cid = some c →
    c ≠ calculateBlockCid hash (blocks.get ⟨i, hi⟩).data →
    validateFrom hash n blocks = .error (.cidMismatch (n + i)) := by
  induction blocks with
  | nil => intro n i hi; simp at hi
  | cons b rest ih =>
    intro n i hi hgood c hparse hne
    cases i with
    | zero =>
      simp only [List.get] at hparse hne
      rw [validateFrom, hparse]
      dsimp only
      rw [if_pos (fun hh => hne hh.symm), Nat.add_zero]
    | succ j =>
      have hgb : GoodBlock hash b := hgood 0 (by simp) (Nat.succ_pos j)
      rw [validateFrom, hgb.1]
      dsimp only
      rw [if_neg (by simp)]
      have hcl : checkLinks n 0 b.links = .ok () :=
        (checkLinks_ok_iff n b.links 0).mpr hgb.2
      rw [hcl]
      have hred : ((Except.ok () : Except ValidateErr Unit) >>= fun _ =>
          validateFrom hash (n + 1) rest) = validateFrom hash (n + 1) rest := rfl
      rw [hred]
      have harith : n + (j + 1) = (n + 1) + j := by omega
      rw [harith]
      exact ih (n + 1) j (Nat.lt_of_succ_lt_succ hi)
        (fun k hk hkj => hgood (k + 1) (Nat.succ_lt_succ hk) (Nat.succ_lt_succ hkj))
        c hparse hne

theorem validateFrom_error_link (hash : List Nat → List Nat) (blocks : List IpfsBlock) :
    ∀ (n i j : Nat),
    (∀ b ∈ blocks, cidFromBytes b.cid = some (calculateBlockCid hash b.data)) →
    (validateFrom hash n blocks = .error (.emptyLinkName i j) ∨
     validateFrom hash n blocks = .error (.emptyLinkCid i j)) →
    ∃ k, i = n + k ∧ ∃ hk : k < blocks.length,
      ∃ l ∈ (blocks.get ⟨k, hk⟩).links, l.name = "" ∨ l.cid = [] := by
  induction blocks with
  | nil =>
    intro n i j _ h
    rcases h with h | h <;> simp [validateFrom] at h
  | cons b rest ih =>
    intro n i j hcons h
    have hb := hcons b (List.mem_cons_self b rest)
    rw [validateFrom, hb] at h
    dsimp only at h
    rw [if_neg (by simp)] at h
    cases hcl : checkLinks n 0 b.links with
    | error e =>
      rw [hcl] at h
      have hred : ((Except.error e : Except ValidateErr Unit) >>= fun _ =>
          validateFrom hash (n + 1) rest) = (Except.error e : Except ValidateErr Unit) := rfl
      rw [hred] at h
      have he : e = .emptyLinkName i j ∨ e = .emptyLinkCid i j := by
        rcases h with h | h
        · injection h with h; exact Or.inl h
        · injection h with h; exact Or.inr h
      have hbad := checkLinks_error_bad n b.links 0 i j (by
        rcases he with rfl | rfl
        · exact Or.inl hcl
        · exact Or.inr hcl)
      obtain ⟨hi, l, hl, hlb⟩ := hbad
      exact ⟨0, by omega, by simp, l, hl, hlb⟩
    | ok u =>
      cases u
      rw [hcl] at h
      have hred : ((Except.ok () : Except ValidateErr Unit) >>= fun _ =>
          validateFrom hash (n + 1) rest) = validateFrom hash (n + 1) rest := rfl
      rw [hred] at h
      obtain ⟨k, hik, hk, l, hl, hlb⟩ :=
        ih (n + 1) i j (fun x hx => hcons x (List.mem_cons_of_mem b hx)) h
      exact ⟨k + 1, by omega, Nat.succ_lt_succ hk, l, hl, hlb⟩

theorem chunkLinkName_ne (n : Nat) : ("chunk_" ++ toString n) ≠ "" := by
  intro h
  have hd := congrArg String.data h
  simp [String.data_append] at hd

theorem snd_mem_of_mem_enum {α : Type} {p : Nat × α} {l : List α}
    (hp : p ∈ l.enum) : p.2 ∈ l := by
  cases p with
  | mk i x =>
    obtain ⟨_, h2, h3⟩ := List.mem_enumFrom hp
    simp only [Nat.sub_zero] at h3
    rw [h3]
    exact List.getElem_mem (by omega)

theorem createBlocks_good (hash : List Nat → List Nat) (mbs : Nat) (content : List Nat) :
    ∀ b ∈ createBlocks hash mbs content, GoodBlock hash b := by
  intro b hb
  unfold createBlocks at hb
  simp only at hb
  have hchunk : ∀ d : List Nat,
      GoodBlock hash { data := d, cid := (calculateBlockCid hash d).toBytes, links := [] } := by
    intro d
    exact ⟨cidFromBytes_toBytes _, by simp⟩
  split at hb
  · rcases List.mem_cons.mp hb with rfl | hb
    · constructor
      · exact cidFromBytes_toBytes _
      · intro l hl
        simp only [createRootBlock] at hl
        obtain ⟨p, hp, rfl⟩ := List.mem_map.mp hl
        refine ⟨chunkLinkName_ne p.1, ?_⟩
        have hmem : p.2 ∈ (chunkify mbs content).map (fun d =>
            ({ data := d, cid := (calculateBlockCid hash d).toBytes, links := [] } : IpfsBlock)) :=
          snd_mem_of_mem_enum hp
        obtain ⟨d, _, hpd⟩ := List.mem_map.mp hmem
        rw [← hpd]
        simp [CidV.toBytes]
    · obtain ⟨d, _, rfl⟩ := List.mem_map.mp hb
      exact hchunk d
  · obtain ⟨d, _, rfl⟩ := List.mem_map.mp hb
    exact hchunk d

/-- Claim C5: every block list produced by `create_blocks` validates;
changing any one block data while leaving its stored cid unchanged makes
`validate_blocks` fail with a structural error naming that block index; and,
for any cid-consistent block list, validation succeeds exactly when no link
has an empty name or empty cid, and a link-error outcome names a block that
really carries an offending link. -/
theorem validateBlocks_createBlocks_spec (hash : List Nat → List Nat)
    (hinj : Function.Injective hash) (mbs : Nat) (hm : 0 < mbs) (content : List Nat) :
    validateBlocks hash (createBlocks hash mbs content) = .ok () ∧
    (∀ (i : Nat) (hi : i < (createBlocks hash mbs content).length) (d : List Nat),
      d ≠ ((createBlocks hash mbs content).get ⟨i, hi⟩).data →
      validateBlocks hash ((createBlocks hash mbs content).set i
        { (createBlocks hash mbs content).get ⟨i, hi⟩ with data := d }) =
        .error (.cidMismatch i)) ∧
    (∀ blocks : List IpfsBlock,
      (∀ b ∈ blocks, cidFromBytes b.cid = some (calculateBlockCid hash b.data)) →
      ((validateBlocks hash blocks = .ok () ↔
         ∀ b ∈ blocks, ∀ l ∈ b.links, l.name ≠ "" ∧ l.cid ≠ []) ∧
       ∀ i j, (validateBlocks hash blocks = .error (.emptyLinkName i j) ∨
         validateBlocks hash blocks = .error (.emptyLinkCid i j)) →
         ∃ hi : i < blocks.length, ∃ l ∈ (blocks.get ⟨i, hi⟩).links,
           l.name = "" ∨ l.cid = [])) := by
  have hgood := createBlocks_good hash mbs content
  refine ⟨?_, ?_, ?_⟩
  · exact (validateFrom_ok_iff hash _ (fun b hb => (hgood b hb).1) 0).mpr
      (fun b hb l hl => (hgood b hb).2 l hl)
  · intro i hi d hd
    have hb0 := hgood _ (List.get_mem (createBlocks hash mbs content) i hi)
    have hlen2 : ((createBlocks hash mbs content).set i
        { (createBlocks hash mbs content).get ⟨i, hi⟩ with data := d }).length =
        (createBlocks hash mbs content).length := List.length_set _ _ _
    have hi2 : i < ((createBlocks hash mbs content).set i
        { (createBlocks hash mbs content).get ⟨i, hi⟩ with data := d }).length := by
      rw [hlen2]; exact hi
    have hgeti : ((createBlocks hash mbs content).set i
        { (createBlocks hash mbs content).get ⟨i, hi⟩ with data := d }).get ⟨i, hi2⟩ =
        { (createBlocks hash mbs content).get ⟨i, hi⟩ with data := d } := by
      rw [List.get_eq_getElem]
      exact List.getElem_set_self hi2
    have hres := validateFrom_mismatch hash _ 0 i hi2
      (fun k hk hki => by
        have hne : i ≠ k := by omega
        have := List.getElem_set_ne hne (l := createBlocks hash mbs content)
          (a := { (createBlocks hash mbs content).get ⟨i, hi⟩ with data := d }) hk
        rw [List.get_eq_getElem, this]
        exact hgood _ (List.getElem_mem _))
      (calculateBlockCid hash ((createBlocks hash mbs content).get ⟨i, hi⟩).data)
      (by rw [hgeti]; exact hb0.1)
      (by
        rw [hgeti]
        intro hh
        have : hash ((createBlocks hash mbs content).get ⟨i, hi⟩).data = hash d :=
          congrArg CidV.digest hh
        exact hd (hinj this).symm)
    rw [Nat.zero_add] at hres
    exact hres
  · intro blocks hcons
    refine ⟨validateFrom_ok_iff hash blocks hcons 0, ?_⟩
    intro i j hh
    obtain ⟨k, hik, hk, l, hl, hlb⟩ := validateFrom_error_link hash blocks 0 i j hcons hh
    have hik2 : i = k := by omega
    subst hik2
    exact ⟨hk, l, hl, hlb⟩

theorem byteRangeLoop_eq (start stop : Nat) (hlt : start < stop) :
    ∀ (ds : List (List Nat)) (pos : Nat),
      byteRangeLoop start stop ds pos =
        some ((ds.flatten.drop (start - pos)).take (stop - max start pos)) := by
  intro ds
  induction ds with
  | nil => intro pos; simp [byteRangeLoop]
  | cons d rest ih =>
    intro pos
    rw [byteRangeLoop]
    by_cases hov : pos + d.length > start ∧ pos < stop
    · rw [if_pos hov]
      have hA : (if pos < start then start - pos else 0) = start - pos := by
        split <;> omega
      have hB : (if pos + d.length > stop then stop - pos else d.length) =
          min (stop - pos) d.length := by
        split <;> omega
      rw [hA, hB, rustSlice, if_pos (by constructor <;> omega)]
      dsimp only
      by_cases hend : pos + d.length ≥ stop
      · rw [if_pos hend]
        rw [List.flatten_cons, List.drop_append_eq_append_drop]
        have h0 : start - pos - d.length = 0 := by omega
        rw [h0, List.drop_zero, List.take_append_eq_append_take]
        have h1 : stop - max start pos - (List.drop (start - pos) d).length = 0 := by
          rw [List.length_drop]; omega
        rw [h1, List.take_zero, List.append_nil]
        have h2 : min (stop - pos) d.length - (start - pos) = stop - max start pos := by
          omega
        rw [h2]
      · rw [if_neg hend]
        rw [ih (pos + d.length)]
        have h0 : start - (pos + d.length) = 0 := by omega
        have h1 : max start (pos + d.length) = pos + d.length := by omega
        rw [h0, h1, List.drop_zero, Option.map_some']
        have h2 : min (stop - pos) d.length - (start - pos) = d.length - (start - pos) := by
          omega
        rw [h2]
        have h3 : (List.drop (start - pos) d).take (d.length - (start - pos)) =
            List.drop (start - pos) d :=
          List.take_of_length_le (by rw [List.length_drop])
        rw [h3]
        rw [List.flatten_cons, List.drop_append_eq_append_drop]
        have h4 : start - pos - d.length = 0 := by omega
        rw [h4, List.drop_zero, List.take_append_eq_append_take]
        have h5 : List.take (stop - max start pos) (List.drop (start - pos) d) =
            List.drop (start - pos) d :=
          List.take_of_length_le (by rw [List.length_drop]; omega)
        rw [h5]
        have h6 : stop - max start pos - (List.drop (start - pos) d).length =
            stop - (pos + d.length) := by
          rw [List.length_drop]; omega
        rw [h6]
    · rw [if_neg hov]
      dsimp only
      by_cases hend : pos + d.length ≥ stop
      · rw [if_pos hend]
        have hge : pos ≥ stop := by omega
        have h0 : stop - max start pos = 0 := by omega
        rw [h0, List.take_zero]
      · rw [if_neg hend]
        have hle : pos + d.length ≤ start := by omega
        rw [ih (pos + d.length)]
        have h1 : max start (pos + d.length) = start := by omega
        have h2 : max start pos = start := by omega
        rw [h1, h2, Option.map_some']
        rw [List.flatten_cons, List.drop_append_eq_append_drop]
        have h3 : List.drop (start - pos) d = [] :=
          List.drop_eq_nil_of_le (by omega)
        have h4 : start - pos - d.length = start - (pos + d.length) := by omega
        rw [h3, h4]
        simp

theorem concatBlocks_length (blocks : List IpfsBlock) :
    (concatBlocks blocks).length = totalLength blocks := by
  rw [concatBlocks, totalLength, List.length_flatten, List.map_map]
  rfl

/-- Claim C2, amended: for a valid range (`start < end`, which `is_valid`
enforces before extraction runs), the guest extraction returns exactly bytes
`[start, end)` of the in-order concatenation of the block data when `end` is
at most the total length of all blocks, and errors whenever that total length
is `≤ start` or `< end`.  The host `ProofGenerator::extract_byte_range`,
however, performs no total-length check: it returns the bytes of
`[start, end)` clipped to the total length, and errors exactly when that
clipped range is empty. -/
theorem extract_byte_range_spec (blocks : List IpfsBlock) (start stop : Nat)
    (hlt : start < stop) :
    (stop ≤ totalLength blocks →
      guestExtractByteRange blocks start stop =
        .ok (((concatBlocks blocks).drop start).take (stop - start))) ∧
    ((totalLength blocks ≤ start ∨ totalLength blocks < stop) →
      guestExtractByteRange blocks start stop = .error .invalidRange) ∧
    (extractByteRange blocks start stop =
      if ((concatBlocks blocks).drop start).take (stop - start) = [] then
        .error .noContent
      else .ok (((concatBlocks blocks).drop start).take (stop - start))) := by
  have hloop := byteRangeLoop_eq start stop hlt (blocks.map (fun b => b.data)) 0
  have hmax : max start 0 = start := Nat.max_zero start
  rw [Nat.sub_zero, hmax] at hloop
  have hflat : (blocks.map (fun b => b.data)).flatten = concatBlocks blocks := rfl
  rw [hflat] at hloop
  refine ⟨?_, ?_, ?_⟩
  · intro hle
    rw [guestExtractByteRange]
    rw [if_neg (by push_neg; refine ⟨by omega, by omega, by omega⟩)]
    rw [hloop]
  · intro hbad
    rw [guestExtractByteRange]
    rw [if_pos (by omega)]
  · rw [extractByteRange, hloop]

theorem bool_not_isEmpty_string (p : String) : (!p.isEmpty) = true ↔ p ≠ "" := by
  rw [Bool.not_eq_true', Bool.eq_false_iff]
  exact not_congr (String.isEmpty_iff p)

theorem bool_not_isEmpty_list {α : Type} (l : List α) : (!l.isEmpty) = true ↔ l ≠ [] := by
  rw [Bool.not_eq_true', Bool.eq_false_iff]
  exact not_congr List.isEmpty_iff

theorem isValidAll_iff (l : List ContentSelection)
    (ih : ∀ s ∈ l, (s.isValid = true ↔ ValidSel s)) :
    ContentSelection.isValidAll l = true ↔ ∀ s ∈ l, ValidSel s := by
  induction l with
  | nil => simp [ContentSelection.isValidAll]
  | cons s rest ihl =>
    rw [ContentSelection.isValidAll, Bool.and_eq_true]
    rw [ih s (List.mem_cons_self s rest)]
    rw [ihl (fun x hx => ih x (List.mem_cons_of_mem s hx))]
    constructor
    · rintro ⟨h1, h2⟩ x hx
      rcases List.mem_cons.mp hx with rfl | hx
      · exact h1
      · exact h2 x hx
    · intro h
      exact ⟨h s (List.mem_cons_self s rest), fun x hx => h x (List.mem_cons_of_mem s hx)⟩

/-- Claim C7: `is_valid` is a pure total function of the selection variant:
a byte range is valid iff `start < end`, a pattern iff its content is
non-empty, a regex iff its pattern string is non-empty, and a multiple
selection iff its list is non-empty and every member is valid (the predicate
`ValidSel` states exactly the claim wording). -/
theorem isValid_iff_ValidSel : ∀ sel : ContentSelection, (sel.isValid = true ↔ ValidSel sel)
  | .byteRange s e => by
    rw [ContentSelection.isValid]
    simp only [decide_eq_true_eq]
    constructor
    · exact fun h => ValidSel.byteRange h
    · intro h; cases h with | byteRange h => exact h
  | .pattern c => by
    rw [ContentSelection.isValid, bool_not_isEmpty_list]
    constructor
    · exact fun h => ValidSel.pattern h
    · intro h; cases h with | pattern h => exact h
  | .regex p => by
    rw [ContentSelection.isValid, bool_not_isEmpty_string]
    constructor
    · exact fun h => ValidSel.regex h
    · intro h; cases h with | regex h => exact h
  | .multiple l => by
    have ih : ∀ s ∈ l, (ContentSelection.isValid s = true ↔ ValidSel s) :=
      fun s _ => isValid_iff_ValidSel s
    rw [ContentSelection.isValid, Bool.and_eq_true, bool_not_isEmpty_list,
      isValidAll_iff l ih]
    constructor
    · rintro ⟨h1, h2⟩
      exact ValidSel.multiple h1 h2
    · intro h; cases h with | multiple h1 h2 => exact ⟨h1, h2⟩
termination_by sel => sizeOf sel
decreasing_by
  have hs : sizeOf s < sizeOf l := List.sizeOf_lt_of_mem (by assumption)
  simp only [ContentSelection.multiple.sizeOf_spec]
  omega

theorem estimatedSizeSum_eq (l : List ContentSelection) :
    ContentSelection.estimatedSizeSum l =
      if ∀ s ∈ l, (s.estimatedSize).isSome then
        some ((l.map (fun s => (s.estimatedSize).getD 0)).sum)
      else none := by
  induction l with
  | nil => simp [ContentSelection.estimatedSizeSum]
  | cons s rest ih =>
    rw [ContentSelection.estimatedSizeSum]
    cases hs : s.estimatedSize with
    | none =>
      dsimp only
      rw [if_neg]
      intro hall
      have := hall s (List.mem_cons_self s rest)
      rw [hs] at this
      exact absurd this (by simp)
    | some a =>
      cases hrest : ContentSelection.estimatedSizeSum rest with
      | none =>
        dsimp only
        rw [ih] at hrest
        rw [if_neg]
        intro hall
        rw [if_pos (fun x hx => hall x (List.mem_cons_of_mem s hx))] at hrest
        exact absurd hrest (by simp)
      | some b =>
        dsimp only
        rw [ih] at hrest
        by_cases hall : ∀ x ∈ rest, (x.estimatedSize).isSome
        · rw [if_pos hall] at hrest
          injection hrest with hb
          rw [if_pos (by
            intro x hx
            rcases List.mem_cons.mp hx with rfl | hx
            · rw [hs]; rfl
            · exact hall x hx)]
          simp only [List.map_cons, List.sum_cons, hs, Option.getD_some]
          rw [hb]
        · rw [if_neg hall] at hrest
          exact absurd hrest (by simp)

/-- Claim C10: `estimated_size` computes `end - start` for a byte range
unconditionally (wrapping usize subtraction), so under the precondition
`start ≤ end` it returns exactly `some (end - start)`; a pattern returns its
length, a regex returns `none`, and a multiple selection returns the sum of
member estimates, propagating `none` if any member has no estimate. -/
theorem estimatedSize_spec :
    (∀ s e : Nat, s ≤ e → e < usizeMod →
      (ContentSelection.byteRange s e).estimatedSize = some (e - s)) ∧
    (∀ c : List Nat, (ContentSelection.pattern c).estimatedSize = some c.length) ∧
    (∀ p : String, (ContentSelection.regex p).estimatedSize = none) ∧
    (∀ l : List ContentSelection, (ContentSelection.multiple l).estimatedSize =
      if ∀ s ∈ l, (s.estimatedSize).isSome then
        some ((l.map (fun s => (s.estimatedSize).getD 0)).sum)
      else none) := by
  refine ⟨?_, fun c => rfl, fun p => rfl, fun l => ?_⟩
  · intro s e hse he
    rw [ContentSelection.estimatedSize]
    congr 1
    simp only [usizeSub, usizeMod] at *
    omega
  · rw [ContentSelection.estimatedSize]
    exact estimatedSizeSum_eq l

/-- Claim C3, counterexample to the claim as stated: a proof whose stored
receipt bytes cannot be decoded (modelled by a decoder returning `none`, as
`bincode::deserialize` does on the sample proof receipt `[1, 2, 3, 4]`) makes
`verify_detailed` return an `Err` (a serialization error), not an `Ok` result
with `is_valid = false`. -/
theorem verifyDetailed_decode_failure_errs :
    verifyDetailed (R := Unit) (fun _ => none) (fun _ => true)
      (fun _ => List.replicate 32 0) VerificationConfig.default 0 sampleProof [1] =
      .error .serializationErr := by decide

/-- Claim C3, amended: a proof failing the structure stage yields an Ok
result with `is_valid = false` and a failing structure step; a proof whose
receipt decodes but fails cryptographic verification yields an Ok result with
`is_valid = false` and a failing cryptographic step; but a proof whose stored
receipt bytes cannot be decoded into a valid receipt yields an `Err`
(serialization error), not an Ok result. -/
theorem verifyDetailed_failures (R : Type) (decodeReceipt : List Nat → Option R)
    (receiptVerify : R → Bool) (sha256 : List Nat → List Nat)
    (cfg : VerificationConfig) (now : Int) (proof : Proof) (claimed : List Nat) :
    (verifyProofStructure cfg now proof = false →
      verifyDetailed decodeReceipt receiptVerify sha256 cfg now proof claimed =
        .ok (mkVerificationResult cfg false []
          [⟨"Proof Structure Validation", false, some "Invalid proof structure"⟩])) ∧
    (∀ r, decodeReceipt proof.zkProof.receipt = some r → receiptVerify r = false →
      verifyProofStructure cfg now proof = true →
      verifyDetailed decodeReceipt receiptVerify sha256 cfg now proof claimed =
        .ok (mkVerificationResult cfg false []
          [⟨"Proof Structure Validation", true, none⟩,
           ⟨"Cryptographic Proof Verification", false,
             some "Cryptographic verification failed"⟩])) ∧
    (verifyProofStructure cfg now proof = true →
      decodeReceipt proof.zkProof.receipt = none →
      verifyDetailed decodeReceipt receiptVerify sha256 cfg now proof claimed =
        .error .serializationErr) := by
  refine ⟨?_, ?_, ?_⟩
  · intro h
    rw [verifyDetailed, h]
    rfl
  · intro r hdec hrv h
    rw [verifyDetailed, h]
    simp only [Bool.not_true, Bool.false_eq_true, if_false]
    rw [verifyCryptographicProof, hdec]
    dsimp only
    rw [hrv]
    rfl
  · intro h hdec
    rw [verifyDetailed, h]
    simp only [Bool.not_true, Bool.false_eq_true, if_false]
    rw [verifyCryptographicProof, hdec]

/-- Claim C9: whenever `verify_batch` returns results, it returns exactly one
`VerificationResult` per input pair, in input order, and each result equals
the result of calling `verify_detailed` on that single pair alone. -/
theorem verifyBatch_spec (R : Type) (decodeReceipt : List Nat → Option R)
    (receiptVerify : R → Bool) (sha256 : List Nat → List Nat)
    (cfg : VerificationConfig) (now : Int) :
    ∀ (pairs : List (Proof × List Nat)) (results : List VerificationResult),
    verifyBatch decodeReceipt receiptVerify sha256 cfg now pairs = .ok results →
    results.length = pairs.length ∧
    ∀ (i : Nat) (hi : i < pairs.length) (hi2 : i < results.length),
      verifyDetailed decodeReceipt receiptVerify sha256 cfg now
        (pairs.get ⟨i, hi⟩).1 (pairs.get ⟨i, hi⟩).2 = .ok (results.get ⟨i, hi2⟩) := by
  intro pairs
  induction pairs with
  | nil =>
    intro results h
    rw [verifyBatch] at h
    injection h with h
    subst h
    exact ⟨rfl, fun i hi => absurd hi (by simp)⟩
  | cons p rest ih =>
    intro results h
    rw [verifyBatch] at h
    cases hd : verifyDetailed decodeReceipt receiptVerify sha256 cfg now p.1 p.2 with
    | error e =>
      rw [hd] at h
      have hred : ((Except.error e : Except VerifyErr VerificationResult) >>= fun r =>
          verifyBatch decodeReceipt receiptVerify sha256 cfg now rest >>= fun rs =>
            (Except.ok (r :: rs) : Except VerifyErr (List VerificationResult))) =
          (Except.error e : Except VerifyErr (List VerificationResult)) := rfl
      rw [hred] at h
      exact absurd h (by simp)
    | ok r =>
      rw [hd] at h
      cases hrest : verifyBatch decodeReceipt receiptVerify sha256 cfg now rest with
      | error e =>
        rw [hrest] at h
        have hred : ((Except.ok r : Except VerifyErr VerificationResult) >>= fun r2 =>
            (Except.error e : Except VerifyErr (List VerificationResult)) >>= fun rs =>
              (Except.ok (r2 :: rs) : Except VerifyErr (List VerificationResult))) =
            (Except.error e : Except VerifyErr (List VerificationResult)) := rfl
        rw [hred] at h
        exact absurd h (by simp)
      | ok rs =>
        rw [hrest] at h
        have hr : results = r :: rs := by
          have : (Except.ok r : Except VerifyErr VerificationResult) >>= (fun r2 =>
              (Except.ok rs : Except VerifyErr (List VerificationResult)) >>= (fun rs2 =>
                Except.ok (r2 :: rs2))) = Except.ok (r :: rs) := rfl
          rw [this] at h
          injection h with h
          exact h.symm
        subst hr
        obtain ⟨hlen, hidx⟩ := ih rs hrest
        refine ⟨by simp [hlen], ?_⟩
        intro i hi hi2
        cases i with
        | zero => exact hd
        | succ j =>
          exact hidx j (Nat.lt_of_succ_lt_succ hi) (Nat.lt_of_succ_lt_succ hi2)

theorem verifyDetailed_pass3 (R : Type) (decodeReceipt : List Nat → Option R)
    (receiptVerify : R → Bool) (sha256 : List Nat → List Nat)
    (cfg : VerificationConfig) (now : Int) (proof : Proof) (claimed : List Nat) (r : R)
    (hstru : verifyProofStructure cfg now proof = true)
    (hdec : decodeReceipt proof.zkProof.receipt = some r)
    (hrv : receiptVerify r = true)
    (hhash : sha256 claimed = proof.contentHash) :
    verifyDetailed decodeReceipt receiptVerify sha256 cfg now proof claimed =
      verifyDetailedTail cfg proof
        [⟨"Proof Structure Validation", true, none⟩,
         ⟨"Cryptographic Proof Verification", true, none⟩,
         ⟨"Content Hash Verification", true, none⟩] := by
  have hch : verifyContentHash sha256 proof claimed = true := by
    rw [verifyContentHash]
    exact decide_eq_true hhash
  rw [verifyDetailed, hstru]
  simp only [Bool.not_true, Bool.false_eq_true, if_false]
  rw [verifyCryptographicProof, hdec]
  dsimp only
  rw [hrv, hch]
  simp only [Bool.not_true, Bool.false_eq_true, if_false]
  rfl

/-- Claim C4: for every proof whose metadata records a 128-bit security level
and which passes the structure, cryptographic and content-hash stages,
verifying it with a `MinSecurityLevel(256)` custom rule yields
`is_valid = false` when strict verification is enabled, and `is_valid = true`
together with a non-empty warning list when it is disabled. -/
theorem verify_minSecurityLevel_rule (R : Type) (decodeReceipt : List Nat → Option R)
    (receiptVerify : R → Bool) (sha256 : List Nat → List Nat)
    (cfg : VerificationConfig) (now : Int) (proof : Proof) (claimed : List Nat)
    (rname rdesc : String)
    (hrules : cfg.customRules = [⟨rname, rdesc, .minSecurityLevel 256⟩])
    (hsec : proof.metadata.security.securityLevel = 128)
    (hstru : verifyProofStructure cfg now proof = true)
    (r : R) (hdec : decodeReceipt proof.zkProof.receipt = some r)
    (hrv : receiptVerify r = true)
    (hhash : sha256 claimed = proof.contentHash) :
    (cfg.strictVerification = true →
      ∃ res, verifyDetailed decodeReceipt receiptVerify sha256 cfg now proof claimed =
        .ok res ∧ res.isValid = false) ∧
    (cfg.strictVerification = false →
      ∃ res, verifyDetailed decodeReceipt receiptVerify sha256 cfg now proof claimed =
        .ok res ∧ res.isValid = true ∧ res.warnings ≠ []) := by
  rw [verifyDetailed_pass3 R decodeReceipt receiptVerify sha256 cfg now proof claimed r
    hstru hdec hrv hhash]
  have hruleval : verifyCustomRules cfg proof =
      ((false || !cfg.strictVerification) && true,
       ["Custom rule " ++ rname ++ " failed: " ++ rdesc]) := by
    rw [verifyCustomRules, hrules, verifyCustomRulesGo, verifyCustomRulesGo]
    rw [hsec]
    rfl
  have hempty : cfg.customRules.isEmpty = false := by
    rw [hrules]
    rfl
  constructor
  · intro hstrict
    rw [verifyDetailedTail]
    by_cases hvm : cfg.verifyMetadata
    · simp only [hvm, if_true]
      by_cases hm : (verifyMetadata cfg proof).1
      · simp only [hm, hstrict, Bool.not_true, Bool.and_false, Bool.false_eq_true, if_false]
        rw [hempty]
        simp only [Bool.false_eq_true, if_false]
        rw [hruleval]
        simp only [hstrict, Bool.not_true, Bool.or_false, Bool.false_and,
          Bool.and_true, Bool.true_and]
        exact ⟨_, rfl, rfl⟩
      · simp only [Bool.not_eq_true] at hm
        simp only [hm, hstrict, Bool.not_false, Bool.and_true, if_true]
        exact ⟨_, rfl, rfl⟩
    · simp only [hvm, if_false]
      rw [hempty]
      simp only [Bool.false_eq_true, if_false]
      rw [hruleval]
      simp only [hstrict, Bool.not_true, Bool.or_false, Bool.false_and, Bool.and_true,
        Bool.true_and]
      exact ⟨_, rfl, rfl⟩
  · intro hstrict
    rw [verifyDetailedTail]
    by_cases hvm : cfg.verifyMetadata
    · simp only [hvm, if_true]
      by_cases hm : (verifyMetadata cfg proof).1
      · simp only [hm, hstrict, Bool.false_and, Bool.false_eq_true, if_false]
        rw [hempty]
        simp only [Bool.false_eq_true, if_false]
        rw [hruleval]
        simp only [hstrict, Bool.false_and, Bool.not_false, Bool.or_true, Bool.true_and,
          Bool.and_true, Bool.false_eq_true, if_false]
        refine ⟨_, rfl, rfl, ?_⟩
        simp [mkVerificationResult]
      · simp only [Bool.not_eq_true] at hm
        simp only [hm, hstrict, Bool.false_and, Bool.false_eq_true, if_false]
        rw [hempty]
        simp only [Bool.false_eq_true, if_false]
        rw [hruleval]
        simp only [hstrict, Bool.false_and, Bool.not_false, Bool.or_true, Bool.true_and,
          Bool.and_true, Bool.false_eq_true, if_false]
        refine ⟨_, rfl, rfl, ?_⟩
        simp [mkVerificationResult]
    · simp only [hvm, if_false]
      rw [hempty]
      simp only [Bool.false_eq_true, if_false]
      rw [hruleval]
      simp only [hstrict, Bool.false_and, Bool.not_false, Bool.or_true, Bool.true_and,
        Bool.and_true, Bool.false_eq_true, if_false]
      refine ⟨_, rfl, rfl, ?_⟩
      simp [mkVerificationResult]

/-- Claim C8 (guest side): the guest extraction for `Regex{pattern}`
concatenates all block data, requires the concatenation to be valid UTF-8,
compiles the pattern, and returns exactly the bytes of the first match;
absence of a match is an error, as is invalid UTF-8.  The host
`ProofGenerator::extract_content`, by contrast, has no Regex arm at all (its
match is non-exhaustive, which Rust rejects), modelled here as an
`unhandledVariant` error: the behaviour is not available from the proof
generator extract path. -/
theorem guest_regex_spec {R : Type} (utf8Decode : List Nat → Option String)
    (rxCompile : String → Option R) (rxFirstMatch : R → String → Option String)
    (xpathEval : String → String → Except ExtractErr (List Nat))
    (blocks : List IpfsBlock) (pat : String) :
    (∀ s re, utf8Decode (concatBlocks blocks) = some s → rxCompile pat = some re →
      (∀ m, rxFirstMatch re s = some m →
        guestExtractContent utf8Decode rxCompile rxFirstMatch xpathEval blocks (.regex pat) =
          .ok (strBytes m)) ∧
      (rxFirstMatch re s = none →
        guestExtractContent utf8Decode rxCompile rxFirstMatch xpathEval blocks (.regex pat) =
          .error .regexNotFound)) ∧
    (utf8Decode (concatBlocks blocks) = none →
      guestExtractContent utf8Decode rxCompile rxFirstMatch xpathEval blocks (.regex pat) =
        .error .invalidUtf8) ∧
    (∀ p2 : String, extractContent blocks (.regex p2) = .error .unhandledVariant) := by
  refine ⟨?_, ?_, fun p2 => rfl⟩
  · intro s re hs hre
    constructor
    · intro m hm
      rw [guestExtractContent, hs]
      dsimp only
      rw [hre]
      dsimp only
      rw [hm]
    · intro hm
      rw [guestExtractContent, hs]
      dsimp only
      rw [hre]
      dsimp only
      rw [hm]
  · intro hs
    rw [guestExtractContent, hs]

/-- Witness for C1 at the identity digest, block size 2 and bytes [7, 8, 9]
(two chunks plus a root block). -/
theorem reconstruct_createBlocks_witness :
    Function.Injective (fun l : List Nat => l) ∧ 0 < 2 ∧
    reconstructContent (createBlocks (fun l => l) 2 [7, 8, 9]) = .ok [7, 8, 9] :=
  ⟨fun _ _ h => h, Nat.zero_lt_succ 1,
    reconstruct_createBlocks (fun l => l) (fun _ _ h => h) 2 (Nat.zero_lt_succ 1) [7, 8, 9]⟩

/-- Claim C2, counterexample to the claim as stated: on a single 16-byte
block (the bytes of "0123456789abcdef"), the host `extract_byte_range` with
range `5..100` returns the clipped bytes "56789abcdef" although the total
length 16 is smaller than `end = 100`, where the claim demands an error. -/
theorem extractByteRange_missing_length_check :
    totalLength
      [(⟨[48, 49, 50, 51, 52, 53, 54, 55, 56, 57, 97, 98, 99, 100, 101, 102], [], []⟩ :
        IpfsBlock)] < 100 ∧
    extractByteRange
      [(⟨[48, 49, 50, 51, 52, 53, 54, 55, 56, 57, 97, 98, 99, 100, 101, 102], [], []⟩ :
        IpfsBlock)] 5 100 =
      .ok [53, 54, 55, 56, 57, 97, 98, 99, 100, 101, 102] := by
  constructor <;> decide

/-- Witness for C2: the spec example, bytes of "0123456789abcdef" with range
`5..10`, extracts the bytes of "56789". -/
theorem extract_byte_range_spec_witness :
    5 < 10 ∧
    guestExtractByteRange
      [(⟨[48, 49, 50, 51, 52, 53, 54, 55, 56, 57, 97, 98, 99, 100, 101, 102], [], []⟩ :
        IpfsBlock)] 5 10 = .ok [53, 54, 55, 56, 57] := by
  refine ⟨by decide, ?_⟩
  have h := (extract_byte_range_spec
    [(⟨[48, 49, 50, 51, 52, 53, 54, 55, 56, 57, 97, 98, 99, 100, 101, 102], [], []⟩ :
      IpfsBlock)] 5 10 (by decide)).1 (by decide)
  rw [h]
  decide

/-- Witness for C3 (amended): on the sample proof with a receipt that decodes
but fails verification, `verify_detailed` returns Ok with
`is_valid = false`. -/
theorem verifyDetailed_failures_witness :
    verifyProofStructure VerificationConfig.default 0 sampleProof = true ∧
    verifyDetailed (R := Unit) (fun _ => some ()) (fun _ => false)
      (fun _ => List.replicate 32 0) VerificationConfig.default 0 sampleProof [1] =
      .ok (mkVerificationResult VerificationConfig.default false []
        [⟨"Proof Structure Validation", true, none⟩,
         ⟨"Cryptographic Proof Verification", false,
           some "Cryptographic verification failed"⟩]) := by
  refine ⟨by decide, ?_⟩
  exact (verifyDetailed_failures Unit (fun _ => some ()) (fun _ => false)
    (fun _ => List.replicate 32 0) VerificationConfig.default 0 sampleProof [1]).2.1
    () rfl rfl (by decide)

/-- Witness for C4: the sample 128-bit proof against a
`MinSecurityLevel(256)` rule, under the strict and the lenient
configuration. -/
theorem verify_minSecurityLevel_rule_witness :
    (∃ res, verifyDetailed (R := Unit) (fun _ => some ()) (fun _ => true)
        (fun _ => List.replicate 32 0)
        ⟨true, false, some 2592000, true,
          [⟨"min_security_256", "Minimum 256-bit security",
            .minSecurityLevel 256⟩]⟩ 0 sampleProof [1] =
        .ok res ∧ res.isValid = false) ∧
    (∃ res, verifyDetailed (R := Unit) (fun _ => some ()) (fun _ => true)
        (fun _ => List.replicate 32 0)
        ⟨false, false, some 2592000, true,
          [⟨"min_security_256", "Minimum 256-bit security",
            .minSecurityLevel 256⟩]⟩ 0 sampleProof [1] =
        .ok res ∧ res.isValid = true ∧ res.warnings ≠ []) := by
  constructor
  · exact (verify_minSecurityLevel_rule Unit (fun _ => some ()) (fun _ => true)
      (fun _ => List.replicate 32 0)
      ⟨true, false, some 2592000, true,
        [⟨"min_security_256", "Minimum 256-bit security", .minSecurityLevel 256⟩]⟩
      0 sampleProof [1] "min_security_256" "Minimum 256-bit security"
      rfl rfl (by decide) () rfl rfl rfl).1 rfl
  · exact (verify_minSecurityLevel_rule Unit (fun _ => some ()) (fun _ => true)
      (fun _ => List.replicate 32 0)
      ⟨false, false, some 2592000, true,
        [⟨"min_security_256", "Minimum 256-bit security", .minSecurityLevel 256⟩]⟩
      0 sampleProof [1] "min_security_256" "Minimum 256-bit security"
      rfl rfl (by decide) () rfl rfl rfl).2 rfl

/-- Witness for C5 at the identity digest, block size 2 and bytes
[7, 8, 9]. -/
theorem validateBlocks_createBlocks_spec_witness :
    Function.Injective (fun l : List Nat => l) ∧ 0 < 2 ∧
    validateBlocks (fun l => l) (createBlocks (fun l => l) 2 [7, 8, 9]) = .ok () :=
  ⟨fun _ _ h => h, Nat.zero_lt_succ 1,
    (validateBlocks_createBlocks_spec (fun l => l) (fun _ _ h => h) 2
      (Nat.zero_lt_succ 1) [7, 8, 9]).1⟩

/-- Witness for C6 at the identity digest, block size 2 and bytes
[9, 9, 9]. -/
theorem createBlocks_root_structure_witness :
    0 < 2 ∧
    ∀ b ∈ createBlocks (fun l : List Nat => l) 2 [9, 9, 9],
      b.links = [] → b.data.length ≤ 2 :=
  ⟨Nat.zero_lt_succ 1,
    (createBlocks_root_structure (fun l => l) 2 (Nat.zero_lt_succ 1) [9, 9, 9]).1⟩

/-- Witness for C8 with a one-match regex engine on empty block data. -/
theorem guest_regex_spec_witness :
    guestExtractContent (R := Unit) (fun _ => some "abc") (fun _ => some ())
      (fun _ _ => some "b") (fun _ _ => .error .xpathFailed) [] (.regex "b") =
      .ok (strBytes "b") :=
  ((guest_regex_spec (R := Unit) (fun _ => some "abc") (fun _ => some ())
    (fun _ _ => some "b") (fun _ _ => .error .xpathFailed) [] "b").1 "abc" () rfl rfl).1 "b" rfl

/-- Witness for C9: a concrete two-element batch whose results are computed,
and the theorem recovers the first individual verification. -/
theorem verifyBatch_spec_witness :
    verifyDetailed (R := Unit) (fun _ => some ()) (fun _ => true)
      (fun _ => List.replicate 32 0) VerificationConfig.default 0 sampleProof [1] =
      .ok ⟨true, [], []⟩ := by
  have h := (verifyBatch_spec Unit (fun _ => some ()) (fun _ => true)
    (fun _ => List.replicate 32 0) VerificationConfig.default 0
    [(sampleProof, [1]), (sampleProof, [2])]
    [⟨true, [], []⟩, ⟨true, [], []⟩] (by decide)).2 0 (by decide) (by decide)
  exact h

/-- Witness for C10: the byte range `3..10` has estimated size 7. -/
theorem estimatedSize_spec_witness :
    3 ≤ 10 ∧ 10 < usizeMod ∧
    (ContentSelection.byteRange 3 10).estimatedSize = some 7 :=
  ⟨by decide, by decide, estimatedSize_spec.1 3 10 (by decide) (by decide)⟩

end ZkIpfs
